import Mathlib

/-!
Shallow embedding of the Beruto backtesting core (`src/engine/src/engine.cpp`,
`src/engine/src/account.h`) in Lean 4, together with proofs of the properties
stated in the design document.

Modelling choices:
* C++ `double` values are modelled as exact rationals `ℚ`; the IEEE-754
  non-finite values that the engine explicitly tests for (`std::isfinite`)
  are modelled by the inductive type `FP` with constructors for NaN and the
  two infinities, so that the price-validity checks of the code are faithful.
* `py::array_t<double>` inputs are modelled by `PyArray`: an arbitrary shape
  list (the code inspects `ndim()` and `shape(i)`) plus a total entry
  function used at the 2-D indices the loop reads.
* `std::unordered_map<int, Position>` is modelled as an association list with
  unique keys (`findPos` / `setPos`); iteration order is irrelevant to the
  engine's semantics over exact arithmetic (the unlock step is pointwise and
  the valuation is a commutative sum).
* The C++ method mutates `account_` and returns the equity array, throwing
  `std::runtime_error` on shape violations; the embedding is a pure function
  returning `Except String (Account × List ℚ)` whose error branch is reached
  before any account transformation, mirroring the throw-before-mutation
  structure of the source.
-/

namespace Beruto

/-- Model of a C++ `double`: a finite rational or one of the non-finite
IEEE values the engine tests for via `std::isfinite`. -/
inductive FP where
  | fin (q : ℚ)
  | pinf
  | ninf
  | nan
deriving DecidableEq, Repr

namespace FP

/-- `std::isfinite`. -/
def isfinite : FP → Bool
  | .fin _ => true
  | _ => false

/-- The numeric value of a finite `FP` (junk 0 on non-finite values, which
the engine never reads numerically). -/
def toQ : FP → ℚ
  | .fin q => q
  | _ => 0

/-- The engine's price-validity test: the negation of
`price <= 0.0 || !std::isfinite(price)`.  `NaN <= 0.0` is false in IEEE
semantics but `!isfinite(NaN)` is true, so a price is valid iff it is finite
and strictly positive. -/
def validPrice (x : FP) : Bool :=
  match x with
  | .fin q => decide (0 < q)
  | _ => false

/-- IEEE comparison `x > 0.0` (false on NaN). -/
def gtZero : FP → Bool
  | .fin q => decide (0 < q)
  | .pinf => true
  | _ => false

/-- IEEE comparison `x < 0.0` (false on NaN). -/
def ltZero : FP → Bool
  | .fin q => decide (q < 0)
  | .ninf => true
  | _ => false

/-- `std::min(sig, 1.0)` as a rational, for a signal with `gtZero = true`
(on other inputs the engine never evaluates it; junk 0). -/
def clampUpOne : FP → ℚ
  | .fin q => min q 1
  | .pinf => 1
  | _ => 0

/-- `std::min(-sig, 1.0)` as a rational, for a signal with `ltZero = true`
(on other inputs the engine never evaluates it; junk 0). -/
def negClampUpOne : FP → ℚ
  | .fin q => min (-q) 1
  | .ninf => 1
  | _ => 0

end FP

/-- `struct Position` from `account.h`: all three fields default to `0.0`. -/
structure Position where
  total_shares : ℚ := 0
  sellable_shares : ℚ := 0
  avg_cost : ℚ := 0
deriving DecidableEq, Repr

/-- `struct Account` from `account.h`: cash plus the instrument-keyed
position map, modelled as an association list with unique keys. -/
structure Account where
  cash : ℚ
  positions : List (Nat × Position)
deriving DecidableEq, Repr

/-- Lookup in the position map (`unordered_map::find`). -/
def findPos : List (Nat × Position) → Nat → Option Position
  | [], _ => none
  | kv :: rest, k => if kv.1 = k then some kv.2 else findPos rest k

/-- Write-through to the position map: replace the binding for `k` if
present, otherwise insert it (the effect of mutating through
`unordered_map::operator[]` / an iterator). -/
def setPos : List (Nat × Position) → Nat → Position → List (Nat × Position)
  | [], k, pos => [(k, pos)]
  | kv :: rest, k, pos => if kv.1 = k then (k, pos) :: rest else kv :: setPos rest k pos

/-- `constexpr double commission = 0.0003;` -/
def commission : ℚ := 3 / 10000

/-- `constexpr double slippage = 0.0003;` -/
def slippage : ℚ := 3 / 10000

/-- The pre-market T+1 unlock loop: every position's `sellable_shares` is
set to its `total_shares`. -/
def unlockAll (acc : Account) : Account :=
  { acc with
    positions := acc.positions.map fun kv =>
      (kv.1, { kv.2 with sellable_shares := kv.2.total_shares }) }

/-- The `sig > 0.0` branch of the instrument pass (buy). `pq` is the
(valid) price as a rational. -/
def buyStep (pq : ℚ) (sig : FP) (stock : Nat) (acc : Account) : Account :=
  let intent_cash := acc.cash * sig.clampUpOne
  let target_shares := intent_cash / pq
  if target_shares ≤ 0 then acc
  else
    let notional := target_shares * pq
    let cost := notional * (1 + commission + slippage)
    if acc.cash < cost then acc
    else
      let pos := (findPos acc.positions stock).getD {}
      let new_total_shares := pos.total_shares + target_shares
      let new_cost := pos.avg_cost * pos.total_shares + notional
      { cash := acc.cash - cost,
        positions := setPos acc.positions stock
          { total_shares := new_total_shares,
            sellable_shares := pos.sellable_shares + target_shares * 0,
            avg_cost := if 0 < new_total_shares then new_cost / new_total_shares else 0 } }

/-- The `sig < 0.0` branch of the instrument pass (sell). -/
def sellStep (pq : ℚ) (sig : FP) (stock : Nat) (acc : Account) : Account :=
  match findPos acc.positions stock with
  | none => acc
  | some pos =>
    let sell_shares := min pos.sellable_shares (pos.total_shares * sig.negClampUpOne)
    if sell_shares ≤ 0 then acc
    else
      let notional := sell_shares * pq
      let proceeds := notional * (1 - commission - slippage)
      let rem_total := pos.total_shares - sell_shares
      { cash := acc.cash + proceeds,
        positions := setPos acc.positions stock
          (if rem_total ≤ 0 then {}
           else { total_shares := rem_total,
                  sellable_shares := pos.sellable_shares - sell_shares,
                  avg_cost := pos.avg_cost }) }

/-- One iteration of the instrument pass: skip on invalid price, otherwise
dispatch on the sign of the signal. -/
def stepStock (p s : Nat → Nat → FP) (t stock : Nat) (acc : Account) : Account :=
  let price := p t stock
  if price.validPrice then
    let sig := s t stock
    if sig.gtZero then buyStep price.toQ sig stock acc
    else if sig.ltZero then sellStep price.toQ sig stock acc
    else acc
  else acc

/-- The contribution of one stored position to the day-`t` valuation:
`total_shares * price` when the day's price is valid, else 0. -/
def posContrib (p : Nat → Nat → FP) (t : Nat) (kv : Nat × Position) : ℚ :=
  let px := p t kv.1
  if px.validPrice then kv.2.total_shares * px.toQ else 0

/-- The valuation loop: `equity_today = cash + Σ contributions`. -/
def equityValue (p : Nat → Nat → FP) (t : Nat) (acc : Account) : ℚ :=
  acc.cash + (acc.positions.map (posContrib p t)).sum

/-- The full trading part of day `t`: T+1 unlock followed by the instrument
pass over stocks `0, …, n-1` in ascending order. -/
def tradeDay (p s : Nat → Nat → FP) (n t : Nat) (acc : Account) : Account :=
  (List.range n).foldl (fun a stock => stepStock p s t stock a) (unlockAll acc)

/-- One day of the simulation loop: trade, then value. -/
def stepDay (p s : Nat → Nat → FP) (n t : Nat) (acc : Account) : Account × ℚ :=
  let acc2 := tradeDay p s n t acc
  (acc2, equityValue p t acc2)

/-- The day loop over a given list of day indices, threading the account and
collecting the equity series in order. -/
def runDays (p s : Nat → Nat → FP) (n : Nat) : List Nat → Account → Account × List ℚ
  | [], acc => (acc, [])
  | t :: ts, acc =>
    let d := stepDay p s n t acc
    let r := runDays p s n ts d.1
    (r.1, d.2 :: r.2)

/-- The account state after the first `t` days of a run. -/
def accAfter (p s : Nat → Nat → FP) (n : Nat) (acc : Account) (t : Nat) : Account :=
  (runDays p s n (List.range t) acc).1

/-- Model of a `py::array_t<double>` input: its shape list (the code reads
`ndim()` and `shape(i)`) and a total entry function used at the 2-D indices
the loop accesses. -/
structure PyArray where
  shape : List Nat
  entry : Nat → Nat → FP

/-- `ChronoEngine::run`: shape validation (throw before any mutation), then
the day loop.  The pure embedding returns the final account together with
the equity series; the error branch carries the exact `std::runtime_error`
message and, being reached before the loop, leaves the caller's account
untouched. -/
def ChronoEngine.run (acc : Account) (prices signals : PyArray) :
    Except String (Account × List ℚ) :=
  if prices.shape.length ≠ 2 ∨ signals.shape.length ≠ 2 then
    .error "prices and signals must be 2D arrays"
  else if prices.shape.getD 0 0 ≠ signals.shape.getD 0 0 ∨
      prices.shape.getD 1 0 ≠ signals.shape.getD 1 0 then
    .error "prices and signals shapes must match"
  else
    let n_days := prices.shape.getD 0 0
    let n_stocks := prices.shape.getD 1 0
    let r := runDays prices.entry signals.entry n_stocks (List.range n_days) acc
    .ok (r.1, r.2)

/-- The target share count of a buy attempt (`intent_cash / price`). -/
def buyTarget (pq : ℚ) (sig : FP) (cash : ℚ) : ℚ :=
  cash * sig.clampUpOne / pq

/-- The fee-inclusive cost of a buy attempt. -/
def buyCost (pq : ℚ) (sig : FP) (cash : ℚ) : ℚ :=
  buyTarget pq sig cash * pq * (1 + commission + slippage)

/-- The position written by an executed buy: totals grow by the target,
`sellable_shares` picks up `target * 0` (the T+1 enforcement point), and the
average cost is recomputed from the pre-fee notional. -/
def buyPos (pq : ℚ) (sig : FP) (acc : Account) (stock : Nat) : Position :=
  let pos := (findPos acc.positions stock).getD {}
  let target := buyTarget pq sig acc.cash
  { total_shares := pos.total_shares + target,
    sellable_shares := pos.sellable_shares + target * 0,
    avg_cost := if 0 < pos.total_shares + target then
        (pos.avg_cost * pos.total_shares + target * pq) / (pos.total_shares + target)
      else 0 }

/-- The per-position invariant of the design document. -/
def Position.wf (pos : Position) : Prop :=
  0 ≤ pos.sellable_shares ∧ pos.sellable_shares ≤ pos.total_shares ∧
    (pos.total_shares = 0 → pos.sellable_shares = 0 ∧ pos.avg_cost = 0)

/-- All positions of the account satisfy the per-position invariant. -/
def Account.wf (acc : Account) : Prop :=
  ∀ kv ∈ acc.positions, Position.wf kv.2

/-- Every instrument key stored in the account is below `n` (the column
count): the condition under which the unchecked valuation read
`p(t, stock)` is in bounds. -/
def keysBound (acc : Account) (n : Nat) : Prop :=
  ∀ kv ∈ acc.positions, kv.1 < n

/-! ### Concrete inputs used to instantiate the theorems -/

/-- A 1×1 price matrix with constant price 10. -/
def arrP11 : PyArray := ⟨[1, 1], fun _ _ => .fin 10⟩

/-- A 1×1 signal matrix with constant signal 1.0. -/
def arrS11one : PyArray := ⟨[1, 1], fun _ _ => .fin 1⟩

/-- A 1×1 signal matrix with constant signal 0.5. -/
def arrS11half : PyArray := ⟨[1, 1], fun _ _ => .fin (1 / 2)⟩

/-- A 1×2 price matrix with constant price 10. -/
def arrP12 : PyArray := ⟨[1, 2], fun _ _ => .fin 10⟩

/-- A 1×2 signal matrix with constant signal 1.0: both instruments request a
full-cash buy on the same day. -/
def arrS12one : PyArray := ⟨[1, 2], fun _ _ => .fin 1⟩

/-- A 1×2 signal matrix with constant signal `5000/5003 = 1/(1+commission+slippage)`:
both instruments request the largest buy whose fee-inclusive cost fits in the
cash balance. -/
def arrS12full : PyArray := ⟨[1, 2], fun _ _ => .fin (5000 / 5003)⟩

/-- A 1×1 signal matrix with constant signal −1.0 (full liquidation). -/
def arrS11neg : PyArray := ⟨[1, 1], fun _ _ => .fin (-1)⟩

/-- A 1-dimensional array (violates the 2-D precondition). -/
def arrBad1 : PyArray := ⟨[1], fun _ _ => .nan⟩

/-- A 1×0 matrix: one day, zero instruments. -/
def arrP10 : PyArray := ⟨[1, 0], fun _ _ => .nan⟩

/-! ### Structural lemmas about the position map and the day loop -/

theorem findPos_mem : ∀ {l : List (Nat × Position)} {k : Nat} {pos : Position},
    findPos l k = some pos → (k, pos) ∈ l := by
  intro l
  induction l with
  | nil => intro k pos h; simp [findPos] at h
  | cons kv rest ih =>
    intro k pos h
    rw [findPos] at h
    split at h
    · next hk =>
      simp only [Option.some.injEq] at h
      exact List.mem_cons.2 (Or.inl (by rw [← hk, ← h]))
    · exact List.mem_cons.2 (Or.inr (ih h))

theorem setPos_mem : ∀ {l : List (Nat × Position)} {k : Nat} {pos : Position}
    {kv' : Nat × Position}, kv' ∈ setPos l k pos → kv' = (k, pos) ∨ kv' ∈ l := by
  intro l
  induction l with
  | nil => intro k pos kv' h; simp [setPos] at h; exact Or.inl h
  | cons kv rest ih =>
    intro k pos kv' h
    rw [setPos] at h
    split at h
    · rcases List.mem_cons.1 h with h1 | h1
      · exact Or.inl h1
      · exact Or.inr (List.mem_cons.2 (Or.inr h1))
    · rcases List.mem_cons.1 h with h1 | h1
      · exact Or.inr (List.mem_cons.2 (Or.inl h1))
      · rcases ih h1 with h2 | h2
        · exact Or.inl h2
        · exact Or.inr (List.mem_cons.2 (Or.inr h2))

theorem findPos_setPos_self : ∀ (l : List (Nat × Position)) (k : Nat) (pos : Position),
    findPos (setPos l k pos) k = some pos := by
  intro l
  induction l with
  | nil => intro k pos; simp [setPos, findPos]
  | cons kv rest ih =>
    intro k pos
    by_cases hk : kv.1 = k
    · simp [setPos, hk, findPos]
    · simp [setPos, hk, findPos, ih]

theorem runDays_length (p s : Nat → Nat → FP) (n : Nat) :
    ∀ (ts : List Nat) (acc : Account), ((runDays p s n ts acc).2).length = ts.length := by
  intro ts
  induction ts with
  | nil => intro acc; rfl
  | cons t ts ih => intro acc; simp [runDays, ih]

theorem runDays_append (p s : Nat → Nat → FP) (n : Nat) :
    ∀ (ts us : List Nat) (acc : Account),
      runDays p s n (ts ++ us) acc =
        ((runDays p s n us (runDays p s n ts acc).1).1,
         (runDays p s n ts acc).2 ++ (runDays p s n us (runDays p s n ts acc).1).2) := by
  intro ts
  induction ts with
  | nil => intro us acc; simp [runDays]
  | cons t ts ih => intro us acc; simp [runDays, ih]

theorem accAfter_zero (p s : Nat → Nat → FP) (n : Nat) (acc : Account) :
    accAfter p s n acc 0 = acc := rfl

theorem accAfter_succ (p s : Nat → Nat → FP) (n : Nat) (acc : Account) (t : Nat) :
    accAfter p s n acc (t + 1) = (stepDay p s n t (accAfter p s n acc t)).1 := by
  unfold accAfter
  rw [List.range_succ, runDays_append]
  simp [runDays]

theorem runDays_range_getElem (p s : Nat → Nat → FP) (n : Nat) (acc : Account) :
    ∀ (d t : Nat), t < d →
      ((runDays p s n (List.range d) acc).2)[t]? =
        some (equityValue p t (accAfter p s n acc (t + 1))) := by
  intro d
  induction d with
  | zero => intro t ht; exact absurd ht (Nat.not_lt_zero t)
  | succ d ih =>
    intro t ht
    rw [List.range_succ, runDays_append]
    rcases Nat.lt_or_ge t d with h | h
    · rw [List.getElem?_append_left (by rw [runDays_length]; simpa using h)]
      exact ih t h
    · have htd : t = d := Nat.le_antisymm (Nat.lt_succ_iff.1 ht) h
      subst htd
      rw [List.getElem?_append_right (by rw [runDays_length]; simp)]
      rw [runDays_length]
      simp only [List.length_range, Nat.sub_self]
      rw [accAfter_succ]
      simp [runDays, stepDay, accAfter]

theorem foldl_preserve_mem {α : Type} {P : Account → Prop} (f : Account → α → Account) :
    ∀ (l : List α), (∀ x ∈ l, ∀ a, P a → P (f a x)) → ∀ a, P a → P (l.foldl f a) := by
  intro l
  induction l with
  | nil => intro _ a ha; exact ha
  | cons x xs ih =>
    intro hstep a ha
    exact ih (fun y hy => hstep y (List.mem_cons.2 (Or.inr hy)))
      (f a x) (hstep x (List.mem_cons.2 (Or.inl rfl)) a ha)

theorem default_position_wf : Position.wf {} :=
  ⟨le_refl 0, le_refl 0, fun _ => ⟨rfl, rfl⟩⟩

theorem getD_findPos_wf (acc : Account) (hacc : acc.wf) (stock : Nat) :
    Position.wf ((findPos acc.positions stock).getD {}) := by
  cases hf : findPos acc.positions stock with
  | none => exact default_position_wf
  | some pos => simpa using hacc (stock, pos) (findPos_mem hf)

theorem unlockAll_wf (acc : Account) (hacc : acc.wf) : (unlockAll acc).wf := by
  intro kv hkv
  rw [unlockAll] at hkv
  simp only [List.mem_map] at hkv
  obtain ⟨kv0, hkv0, rfl⟩ := hkv
  obtain ⟨h1, h2, h3⟩ := hacc kv0 hkv0
  exact ⟨h1.trans h2, le_refl _, fun h0 => ⟨h0, (h3 h0).2⟩⟩

theorem buyStep_wf (pq : ℚ) (sig : FP) (stock : Nat) (acc : Account)
    (hacc : acc.wf) : (buyStep pq sig stock acc).wf := by
  simp only [buyStep]
  split
  · exact hacc
  · next hT =>
    split
    · exact hacc
    · push_neg at hT
      intro kv hkv
      rcases setPos_mem hkv with h1 | h1
      · subst h1
        obtain ⟨h1, h2, h3⟩ := getD_findPos_wf acc hacc stock
        have h0 : (0 : ℚ) ≤ ((findPos acc.positions stock).getD {}).total_shares :=
          h1.trans h2
        refine ⟨by simpa using h1, by simp; linarith, fun hz => absurd hz (by simp; linarith)⟩
      · exact hacc kv h1

theorem sellStep_wf (pq : ℚ) (sig : FP) (stock : Nat) (acc : Account)
    (hacc : acc.wf) : (sellStep pq sig stock acc).wf := by
  rw [sellStep]
  cases hf : findPos acc.positions stock with
  | none => exact hacc
  | some pos =>
    simp only []
    obtain ⟨h1, h2, h3⟩ := hacc (stock, pos) (findPos_mem hf)
    split
    · exact hacc
    · next hS =>
      push_neg at hS
      have hmin : min pos.sellable_shares (pos.total_shares * sig.negClampUpOne) ≤
          pos.sellable_shares := min_le_left _ _
      intro kv hkv
      rcases setPos_mem hkv with hk1 | hk1
      · subst hk1
        show Position.wf (if _ ≤ _ then _ else _)
        split
        · exact default_position_wf
        · next hR =>
          push_neg at hR
          refine ⟨?_, ?_, fun hz => ?_⟩
          · show (0 : ℚ) ≤ pos.sellable_shares -
              min pos.sellable_shares (pos.total_shares * sig.negClampUpOne)
            linarith
          · show pos.sellable_shares -
                min pos.sellable_shares (pos.total_shares * sig.negClampUpOne) ≤
              pos.total_shares -
                min pos.sellable_shares (pos.total_shares * sig.negClampUpOne)
            linarith
          · have hz' : pos.total_shares -
                min pos.sellable_shares (pos.total_shares * sig.negClampUpOne) = 0 := hz
            exact absurd hz' (by intro h0; linarith)
      · exact hacc kv hk1

theorem stepStock_wf (p s : Nat → Nat → FP) (t stock : Nat) (acc : Account)
    (hacc : acc.wf) : (stepStock p s t stock acc).wf := by
  simp only [stepStock]
  split
  · split
    · exact buyStep_wf _ _ _ _ hacc
    · split
      · exact sellStep_wf _ _ _ _ hacc
      · exact hacc
  · exact hacc

theorem tradeDay_wf (p s : Nat → Nat → FP) (n t : Nat) (acc : Account)
    (hacc : acc.wf) : (tradeDay p s n t acc).wf := by
  rw [tradeDay]
  exact foldl_preserve_mem _ (List.range n)
    (fun stock _ a ha => stepStock_wf p s t stock a ha) _ (unlockAll_wf acc hacc)

theorem runDays_wf (p s : Nat → Nat → FP) (n : Nat) :
    ∀ (ts : List Nat) (acc : Account), acc.wf → ((runDays p s n ts acc).1).wf := by
  intro ts
  induction ts with
  | nil => intro acc hacc; exact hacc
  | cons t ts ih =>
    intro acc hacc
    exact ih _ (tradeDay_wf p s n t acc hacc)

theorem validPrice_toQ_pos {x : FP} (h : x.validPrice = true) : 0 < x.toQ := by
  cases x <;> simp_all [FP.validPrice, FP.toQ]

theorem ltZero_gtZero_false {x : FP} (h : x.ltZero = true) : x.gtZero = false := by
  cases x with
  | fin q =>
    simp only [FP.ltZero, decide_eq_true_eq] at h
    simp only [FP.gtZero, decide_eq_false_iff_not]
    linarith
  | pinf => simp [FP.ltZero] at h
  | ninf => simp [FP.gtZero]
  | nan => simp [FP.ltZero] at h

/-- A buy attempt whose target share count is non-positive leaves the
account untouched. -/
theorem stepStock_buy_skip_target (p s : Nat → Nat → FP) (t stock : Nat) (acc : Account)
    (hg : (s t stock).gtZero = true)
    (ht : buyTarget (p t stock).toQ (s t stock) acc.cash ≤ 0) :
    stepStock p s t stock acc = acc := by
  rw [buyTarget] at ht
  simp only [stepStock, hg, if_true, buyStep]
  split <;> rfl

/-- A buy attempt whose fee-inclusive cost exceeds the cash balance leaves
the account untouched: the buy is rejected outright, not clamped. -/
theorem stepStock_buy_skip_cost (p s : Nat → Nat → FP) (t stock : Nat) (acc : Account)
    (hg : (s t stock).gtZero = true)
    (hc : acc.cash < buyCost (p t stock).toQ (s t stock) acc.cash) :
    stepStock p s t stock acc = acc := by
  rw [buyCost, buyTarget] at hc
  simp only [stepStock, hg, if_true, buyStep]
  split <;> first | rfl | (split <;> rfl)

/-- The executed-buy equation: with a valid price, a positive signal, a
positive target and an affordable cost, the buy branch debits the
fee-inclusive cost and writes `buyPos` for the instrument. -/
theorem stepStock_buy_exec (p s : Nat → Nat → FP) (t stock : Nat) (acc : Account)
    (hv : (p t stock).validPrice = true) (hg : (s t stock).gtZero = true)
    (ht : 0 < buyTarget (p t stock).toQ (s t stock) acc.cash)
    (hc : buyCost (p t stock).toQ (s t stock) acc.cash ≤ acc.cash) :
    stepStock p s t stock acc =
      { cash := acc.cash - buyCost (p t stock).toQ (s t stock) acc.cash,
        positions := setPos acc.positions stock
          (buyPos (p t stock).toQ (s t stock) acc stock) } := by
  have ht' := ht
  have hc' := hc
  rw [buyTarget] at ht'
  rw [buyCost, buyTarget] at hc'
  simp only [stepStock, hv, hg, if_true, buyStep]
  rw [if_neg (not_le.2 ht'), if_neg (not_lt.2 hc')]
  simp only [buyPos, buyCost, buyTarget]

theorem buyStep_cash_nonneg (pq : ℚ) (sig : FP) (stock : Nat) (acc : Account)
    (h : 0 ≤ acc.cash) : 0 ≤ (buyStep pq sig stock acc).cash := by
  simp only [buyStep]
  split
  · exact h
  · split
    · exact h
    · next hC =>
      push_neg at hC
      show (0 : ℚ) ≤ acc.cash - _
      linarith

theorem sellStep_cash_nonneg (pq : ℚ) (sig : FP) (stock : Nat) (acc : Account)
    (hpq : 0 < pq) (h : 0 ≤ acc.cash) : 0 ≤ (sellStep pq sig stock acc).cash := by
  rw [sellStep]
  cases hf : findPos acc.positions stock with
  | none => exact h
  | some pos =>
    simp only []
    split
    · exact h
    · next hS =>
      push_neg at hS
      show (0 : ℚ) ≤ acc.cash +
        min pos.sellable_shares (pos.total_shares * sig.negClampUpOne) * pq *
          (1 - commission - slippage)
      have hfee : (0 : ℚ) < 1 - commission - slippage := by
        rw [commission, slippage]; norm_num
      have hpr : 0 <
          min pos.sellable_shares (pos.total_shares * sig.negClampUpOne) * pq *
            (1 - commission - slippage) := by positivity
      linarith

theorem stepStock_cash_nonneg (p s : Nat → Nat → FP) (t stock : Nat) (acc : Account)
    (h : 0 ≤ acc.cash) : 0 ≤ (stepStock p s t stock acc).cash := by
  simp only [stepStock]
  split
  · next hv =>
    split
    · exact buyStep_cash_nonneg _ _ _ _ h
    · split
      · exact sellStep_cash_nonneg _ _ _ _ (validPrice_toQ_pos hv) h
      · exact h
  · exact h

theorem tradeDay_cash_nonneg (p s : Nat → Nat → FP) (n t : Nat) (acc : Account)
    (h : 0 ≤ acc.cash) : 0 ≤ (tradeDay p s n t acc).cash := by
  rw [tradeDay]
  have hu : 0 ≤ (unlockAll acc).cash := h
  exact foldl_preserve_mem (P := fun a => 0 ≤ a.cash) _ (List.range n)
    (fun stock _ a ha => stepStock_cash_nonneg p s t stock a ha) _ hu

theorem runDays_cash_nonneg (p s : Nat → Nat → FP) (n : Nat) :
    ∀ (ts : List Nat) (acc : Account), 0 ≤ acc.cash →
      0 ≤ ((runDays p s n ts acc).1).cash := by
  intro ts
  induction ts with
  | nil => intro acc h; exact h
  | cons t ts ih => intro acc h; exact ih _ (tradeDay_cash_nonneg p s n t acc h)

theorem keysBound_setPos {l : List (Nat × Position)} {n k : Nat} {pos : Position}
    (hk : k < n) (h : ∀ kv ∈ l, kv.1 < n) : ∀ kv ∈ setPos l k pos, kv.1 < n := by
  intro kv hkv
  rcases setPos_mem hkv with h1 | h1
  · rw [h1]; exact hk
  · exact h kv h1

theorem buyStep_keysBound (pq : ℚ) (sig : FP) (stock n : Nat) (acc : Account)
    (hstock : stock < n) (h : keysBound acc n) : keysBound (buyStep pq sig stock acc) n := by
  simp only [buyStep]
  split
  · exact h
  · split
    · exact h
    · exact keysBound_setPos hstock h

theorem sellStep_keysBound (pq : ℚ) (sig : FP) (stock n : Nat) (acc : Account)
    (hstock : stock < n) (h : keysBound acc n) : keysBound (sellStep pq sig stock acc) n := by
  rw [sellStep]
  cases hf : findPos acc.positions stock with
  | none => exact h
  | some pos =>
    simp only []
    split
    · exact h
    · exact keysBound_setPos hstock h

theorem stepStock_keysBound (p s : Nat → Nat → FP) (t stock n : Nat) (acc : Account)
    (hstock : stock < n) (h : keysBound acc n) :
    keysBound (stepStock p s t stock acc) n := by
  simp only [stepStock]
  split
  · split
    · exact buyStep_keysBound _ _ _ _ _ hstock h
    · split
      · exact sellStep_keysBound _ _ _ _ _ hstock h
      · exact h
  · exact h

theorem unlockAll_keysBound (acc : Account) (n : Nat) (h : keysBound acc n) :
    keysBound (unlockAll acc) n := by
  intro kv hkv
  rw [unlockAll] at hkv
  simp only [List.mem_map] at hkv
  obtain ⟨kv0, hkv0, rfl⟩ := hkv
  exact h kv0 hkv0

theorem tradeDay_keysBound (p s : Nat → Nat → FP) (n t : Nat) (acc : Account)
    (h : keysBound acc n) : keysBound (tradeDay p s n t acc) n := by
  rw [tradeDay]
  exact foldl_preserve_mem (P := fun a => keysBound a n) _ (List.range n)
    (fun stock hs a ha => stepStock_keysBound p s t stock n a (List.mem_range.1 hs) ha)
    _ (unlockAll_keysBound acc n h)

theorem runDays_keysBound (p s : Nat → Nat → FP) (n : Nat) :
    ∀ (ts : List Nat) (acc : Account), keysBound acc n →
      keysBound ((runDays p s n ts acc).1) n := by
  intro ts
  induction ts with
  | nil => intro acc h; exact h
  | cons t ts ih => intro acc h; exact ih _ (tradeDay_keysBound p s n t acc h)

/-- Evaluation of the spec's first scenario: cash 1000, one day, one
instrument, price 10, signal 1.0; the buy costs 1000.6 > 1000, is skipped,
and the equity series is [1000]. -/
theorem run_full_cash_concrete :
    ChronoEngine.run ⟨1000, []⟩ arrP11 arrS11one = Except.ok (⟨1000, []⟩, [1000]) := by
  have hskip : stepStock arrP11.entry arrS11one.entry 0 0 ⟨1000, []⟩ = ⟨1000, []⟩ := by
    apply stepStock_buy_skip_cost
    · norm_num [arrS11one, FP.gtZero]
    · norm_num [buyCost, buyTarget, arrP11, arrS11one, FP.toQ, FP.clampUpOne,
        commission, slippage, min_def]
  have h1 : arrP11.shape = [1, 1] := rfl
  have h2 : arrS11one.shape = [1, 1] := rfl
  rw [ChronoEngine.run]
  rw [if_neg (by rw [h1, h2]; norm_num), if_neg (by rw [h1, h2]; norm_num)]
  rw [h1]
  simp [runDays, stepDay, tradeDay, unlockAll, equityValue, hskip, List.range_succ]

/-! ### Claims -/

/-- C1: for every pair of 2-D matrices of identical shape `d × n` and every
starting account, `run` succeeds and returns an equity series with exactly
one entry per simulated day, in ascending day order, whose day-`t` entry is
the account's cash after day `t`'s trades plus the sum over all stored
positions of `total_shares` times that instrument's day-`t` price (a
position contributing 0 when its day-`t` price is ≤ 0 or non-finite, by
definition of `equityValue`/`posContrib`). -/
theorem C1_equity_series (acc : Account) (prices signals : PyArray) (d n : Nat)
    (hp : prices.shape = [d, n]) (hs : signals.shape = [d, n]) :
    ∃ accF eqs, ChronoEngine.run acc prices signals = Except.ok (accF, eqs) ∧
      eqs.length = d ∧
      ∀ t, t < d →
        eqs[t]? = some (equityValue prices.entry t
          (accAfter prices.entry signals.entry n acc (t + 1))) := by
  refine ⟨(runDays prices.entry signals.entry n (List.range d) acc).1,
          (runDays prices.entry signals.entry n (List.range d) acc).2, ?_, ?_, ?_⟩
  · rw [ChronoEngine.run]
    rw [if_neg (by simp [hp, hs]), if_neg (by simp [hp, hs])]
    simp [hp]
  · rw [runDays_length]
    exact List.length_range d
  · intro t ht
    exact runDays_range_getElem prices.entry signals.entry n acc d t ht

/-- C1 witness: the theorem instantiated at a concrete 1×1 input. -/
theorem C1_equity_series_witness :
    ∃ accF eqs, ChronoEngine.run ⟨1000, []⟩ arrP11 arrS11one = Except.ok (accF, eqs) ∧
      eqs.length = 1 ∧
      ∀ t, t < 1 →
        eqs[t]? = some (equityValue arrP11.entry t
          (accAfter arrP11.entry arrS11one.entry 1 ⟨1000, []⟩ (t + 1))) :=
  C1_equity_series ⟨1000, []⟩ arrP11 arrS11one 1 1 rfl rfl

/-- C2: whenever either input is not two-dimensional or the two shapes
disagree, `run` fails with one of the two `ShapeMismatch` runtime errors.
The check precedes the day loop, so the error branch of the pure embedding
is reached before any account transformation: no account mutation occurs
and no partial equity series is produced (the `Except.error` result carries
neither). -/
theorem C2_shape_mismatch (acc : Account) (prices signals : PyArray)
    (h : ¬(prices.shape.length = 2 ∧ signals.shape.length = 2 ∧
        prices.shape = signals.shape)) :
    ChronoEngine.run acc prices signals =
        Except.error "prices and signals must be 2D arrays" ∨
      ChronoEngine.run acc prices signals =
        Except.error "prices and signals shapes must match" := by
  by_cases h2 : prices.shape.length ≠ 2 ∨ signals.shape.length ≠ 2
  · left
    rw [ChronoEngine.run, if_pos h2]
  · right
    push_neg at h2
    obtain ⟨a, b, hab⟩ := List.length_eq_two.1 h2.1
    obtain ⟨c, e, hce⟩ := List.length_eq_two.1 h2.2
    have hne : prices.shape ≠ signals.shape := fun hcontra => h ⟨h2.1, h2.2, hcontra⟩
    have hcond : prices.shape.getD 0 0 ≠ signals.shape.getD 0 0 ∨
        prices.shape.getD 1 0 ≠ signals.shape.getD 1 0 := by
      rw [hab, hce] at hne ⊢
      simp only [List.getD_cons_zero, List.getD_cons_succ]
      by_contra hcc
      push_neg at hcc
      exact hne (by rw [hcc.1, hcc.2])
    rw [ChronoEngine.run, if_neg (by push_neg; exact h2), if_pos hcond]

/-- C2 witness: the theorem instantiated at a concrete shape violation (a
1-D prices input). -/
theorem C2_shape_mismatch_witness :
    ChronoEngine.run ⟨0, []⟩ arrBad1 arrP11 =
        Except.error "prices and signals must be 2D arrays" ∨
      ChronoEngine.run ⟨0, []⟩ arrBad1 arrP11 =
        Except.error "prices and signals shapes must match" :=
  C2_shape_mismatch ⟨0, []⟩ arrBad1 arrP11 (by simp [arrBad1])

/-- C3: the per-position invariant `0 ≤ sellable_shares ≤ total_shares`
and `total_shares = 0 → sellable_shares = 0 ∧ avg_cost = 0` is preserved by
every operation of the simulation loop: the T+1 unlock, each single
buy/sell/skip step of the instrument pass, and any sequence of whole days,
so it holds at every intermediate point of a run that starts from a
well-formed account. -/
theorem C3_position_invariant (p s : Nat → Nat → FP) (acc : Account) (h : acc.wf) :
    (unlockAll acc).wf ∧
    (∀ t stock, (stepStock p s t stock acc).wf) ∧
    (∀ n t, (tradeDay p s n t acc).wf) ∧
    (∀ n ts, ((runDays p s n ts acc).1).wf) :=
  ⟨unlockAll_wf acc h,
   fun t stock => stepStock_wf p s t stock acc h,
   fun n t => tradeDay_wf p s n t acc h,
   fun n ts => runDays_wf p s n ts acc h⟩

/-- C4: a buy never drives cash negative: a buy whose fee-inclusive cost
exceeds the cash balance is rejected outright (the account is left exactly
unchanged, not clamped to a partial fill), and starting from any
non-negative cash balance, cash remains non-negative after every single
buy/sell step of the instrument pass and after any sequence of whole
days. -/
theorem C4_cash_never_negative (p s : Nat → Nat → FP) (acc : Account) (h : 0 ≤ acc.cash) :
    (∀ t stock, (s t stock).gtZero = true →
        acc.cash < buyCost (p t stock).toQ (s t stock) acc.cash →
        stepStock p s t stock acc = acc) ∧
    (∀ t stock, 0 ≤ (stepStock p s t stock acc).cash) ∧
    (∀ n t, 0 ≤ (tradeDay p s n t acc).cash) ∧
    (∀ n ts, 0 ≤ ((runDays p s n ts acc).1).cash) :=
  ⟨fun t stock hg hc => stepStock_buy_skip_cost p s t stock acc hg hc,
   fun t stock => stepStock_cash_nonneg p s t stock acc h,
   fun n t => tradeDay_cash_nonneg p s n t acc h,
   fun n ts => runDays_cash_nonneg p s n ts acc h⟩

/-- C4 witness: the theorem instantiated at cash 1000, price 10 and a
full-cash signal (cost 1000.6 > 1000, so the buy is rejected), plus the
non-negativity conclusions at day 0 / a one-day run. -/
theorem C4_cash_never_negative_witness :
    (stepStock arrP11.entry arrS11one.entry 0 0 ⟨1000, []⟩ = ⟨1000, []⟩) ∧
    (0 ≤ (stepStock arrP11.entry arrS11one.entry 0 0 ⟨1000, []⟩).cash) ∧
    (0 ≤ (tradeDay arrP11.entry arrS11one.entry 1 0 ⟨1000, []⟩).cash) ∧
    (0 ≤ ((runDays arrP11.entry arrS11one.entry 1 [0] ⟨1000, []⟩).1).cash) := by
  have h : (0 : ℚ) ≤ (⟨1000, []⟩ : Account).cash := by norm_num
  refine ⟨(C4_cash_never_negative _ _ _ h).1 0 0 ?_ ?_,
          (C4_cash_never_negative _ _ _ h).2.1 0 0,
          (C4_cash_never_negative _ _ _ h).2.2.1 1 0,
          (C4_cash_never_negative _ _ _ h).2.2.2 1 [0]⟩
  · norm_num [arrS11one, FP.gtZero]
  · norm_num [buyCost, buyTarget, arrP11, arrS11one, FP.toQ, FP.clampUpOne,
      commission, slippage, min_def]

/-- C5: an executed buy updates the instrument's `total_shares` (adding the
target), its `avg_cost`, and the account's cash (debiting the fee-inclusive
cost), but leaves `sellable_shares` exactly unchanged — the `+ target * 0`
write of the source is the T+1 enforcement point; bought shares become
sellable only through the pre-trading unlock step, which sets
`sellable_shares = total_shares` for every position of any account. -/
theorem C5_buy_frame (p s : Nat → Nat → FP) (t stock : Nat) (acc : Account)
    (hv : (p t stock).validPrice = true) (hg : (s t stock).gtZero = true)
    (ht : 0 < buyTarget (p t stock).toQ (s t stock) acc.cash)
    (hc : buyCost (p t stock).toQ (s t stock) acc.cash ≤ acc.cash) :
    ((stepStock p s t stock acc).cash =
        acc.cash - buyCost (p t stock).toQ (s t stock) acc.cash) ∧
    ((findPos (stepStock p s t stock acc).positions stock).map Position.sellable_shares =
        some ((findPos acc.positions stock).getD {}).sellable_shares) ∧
    ((findPos (stepStock p s t stock acc).positions stock).map Position.total_shares =
        some (((findPos acc.positions stock).getD {}).total_shares +
          buyTarget (p t stock).toQ (s t stock) acc.cash)) ∧
    (∀ a : Account, ∀ kv ∈ (unlockAll a).positions,
        kv.2.sellable_shares = kv.2.total_shares) := by
  rw [stepStock_buy_exec p s t stock acc hv hg ht hc]
  refine ⟨rfl, ?_, ?_, ?_⟩
  · rw [findPos_setPos_self]
    simp [buyPos]
  · rw [findPos_setPos_self]
    simp [buyPos]
  · intro a kv hkv
    rw [unlockAll] at hkv
    simp only [List.mem_map] at hkv
    obtain ⟨kv0, _, rfl⟩ := hkv
    rfl

/-- C5 witness: the theorem instantiated at cash 1000, price 10, signal 0.5
(an executed buy of 50 shares at cost 500.3), with the unlock conclusion at
a concrete one-position account. -/
theorem C5_buy_frame_witness :
    ((stepStock arrP11.entry arrS11half.entry 0 0 ⟨1000, []⟩).cash =
        1000 - buyCost (arrP11.entry 0 0).toQ (arrS11half.entry 0 0) 1000) ∧
    ((findPos (stepStock arrP11.entry arrS11half.entry 0 0 ⟨1000, []⟩).positions 0).map
        Position.sellable_shares = some (0 : ℚ)) ∧
    ((findPos (stepStock arrP11.entry arrS11half.entry 0 0 ⟨1000, []⟩).positions 0).map
        Position.total_shares =
        some (0 + buyTarget (arrP11.entry 0 0).toQ (arrS11half.entry 0 0) 1000)) ∧
    ((0, (⟨2, 2, 3⟩ : Position)).2.sellable_shares =
        (0, (⟨2, 2, 3⟩ : Position)).2.total_shares) := by
  have hv : (arrP11.entry 0 0).validPrice = true := by
    norm_num [arrP11, FP.validPrice]
  have hg : (arrS11half.entry 0 0).gtZero = true := by
    norm_num [arrS11half, FP.gtZero]
  have ht : 0 < buyTarget (arrP11.entry 0 0).toQ (arrS11half.entry 0 0)
      (⟨1000, []⟩ : Account).cash := by
    norm_num [buyTarget, arrP11, arrS11half, FP.toQ, FP.clampUpOne, min_def]
  have hc : buyCost (arrP11.entry 0 0).toQ (arrS11half.entry 0 0)
      (⟨1000, []⟩ : Account).cash ≤ (⟨1000, []⟩ : Account).cash := by
    norm_num [buyCost, buyTarget, arrP11, arrS11half, FP.toQ, FP.clampUpOne,
      commission, slippage, min_def]
  have hmem : (0, (⟨2, 2, 3⟩ : Position)) ∈
      (unlockAll ⟨5, [(0, ⟨2, 1, 3⟩)]⟩).positions :=
    List.mem_singleton.2 rfl
  exact ⟨(C5_buy_frame arrP11.entry arrS11half.entry 0 0 ⟨1000, []⟩ hv hg ht hc).1,
         (C5_buy_frame arrP11.entry arrS11half.entry 0 0 ⟨1000, []⟩ hv hg ht hc).2.1,
         (C5_buy_frame arrP11.entry arrS11half.entry 0 0 ⟨1000, []⟩ hv hg ht hc).2.2.1,
         (C5_buy_frame arrP11.entry arrS11half.entry 0 0 ⟨1000, []⟩ hv hg ht hc).2.2.2
           ⟨5, [(0, ⟨2, 1, 3⟩)]⟩ (0, ⟨2, 2, 3⟩) hmem⟩

/-- C7: on a day when an instrument's price is NaN, non-finite or ≤ 0, the
instrument pass skips that instrument entirely regardless of its signal
(the account is left exactly unchanged), and any stored position for it
contributes 0 to that day's equity valuation. -/
theorem C7_invalid_price_skips (p s : Nat → Nat → FP) (t stock : Nat) (acc : Account)
    (hv : (p t stock).validPrice = false) :
    stepStock p s t stock acc = acc ∧
    ∀ pos : Position, posContrib p t (stock, pos) = 0 := by
  constructor
  · simp [stepStock, hv]
  · intro pos
    simp [posContrib, hv]

/-- C7 witness: the theorem instantiated at a NaN price, day 0, instrument
0, and an account holding a position in that instrument. -/
theorem C7_invalid_price_skips_witness :
    stepStock arrP10.entry arrS11one.entry 0 0 ⟨7, [(0, ⟨3, 1, 2⟩)]⟩ =
        ⟨7, [(0, ⟨3, 1, 2⟩)]⟩ ∧
    posContrib arrP10.entry 0 (0, ⟨3, 1, 2⟩) = 0 :=
  ⟨(C7_invalid_price_skips arrP10.entry arrS11one.entry 0 0 ⟨7, [(0, ⟨3, 1, 2⟩)]⟩ rfl).1,
   (C7_invalid_price_skips arrP10.entry arrS11one.entry 0 0 ⟨7, [(0, ⟨3, 1, 2⟩)]⟩ rfl).2
     ⟨3, 1, 2⟩⟩

/-- C8: selling exactly `total_shares` of a fully unlocked position (the
holdings fraction clamps to 1, e.g. signal ≤ −1) zeroes `total_shares`,
`sellable_shares` and `avg_cost` (the full close-out reset of the source),
and credits cash with `total_shares * price * (1 - commission - slippage)`. -/
theorem C8_full_sell (p s : Nat → Nat → FP) (t stock : Nat) (acc : Account) (pos : Position)
    (hf : findPos acc.positions stock = some pos)
    (hsell : pos.sellable_shares = pos.total_shares)
    (hpos : 0 < pos.total_shares)
    (hv : (p t stock).validPrice = true)
    (hlt : (s t stock).ltZero = true)
    (hfrac : (s t stock).negClampUpOne = 1) :
    (stepStock p s t stock acc).cash =
        acc.cash + pos.total_shares * (p t stock).toQ * (1 - commission - slippage) ∧
    findPos (stepStock p s t stock acc).positions stock = some {} := by
  have hstep : stepStock p s t stock acc =
      { cash := acc.cash + pos.total_shares * (p t stock).toQ *
          (1 - commission - slippage),
        positions := setPos acc.positions stock {} } := by
    have hgf : (s t stock).gtZero = false := ltZero_gtZero_false hlt
    simp only [stepStock, hv, hgf, hlt, if_true]
    rw [sellStep, hf]
    simp only [hsell, hfrac, mul_one, min_self]
    rw [if_neg (not_le.2 hpos)]
    simp [sub_self]
  rw [hstep]
  exact ⟨rfl, findPos_setPos_self _ _ _⟩

/-- C8 witness: the theorem instantiated at a fully unlocked 10-share
position with price 10 and signal −1. -/
theorem C8_full_sell_witness :
    (stepStock arrP11.entry arrS11neg.entry 0 0 ⟨0, [(0, ⟨10, 10, 7⟩)]⟩).cash =
        0 + 10 * (arrP11.entry 0 0).toQ * (1 - commission - slippage) ∧
    findPos (stepStock arrP11.entry arrS11neg.entry 0 0
        ⟨0, [(0, ⟨10, 10, 7⟩)]⟩).positions 0 = some {} := by
  have hf : findPos [(0, (⟨10, 10, 7⟩ : Position))] 0 = some ⟨10, 10, 7⟩ := rfl
  have hv : (arrP11.entry 0 0).validPrice = true := by
    norm_num [arrP11, FP.validPrice]
  have hlt : (arrS11neg.entry 0 0).ltZero = true := by
    norm_num [arrS11neg, FP.ltZero]
  have hfrac : (arrS11neg.entry 0 0).negClampUpOne = 1 := by
    norm_num [arrS11neg, FP.negClampUpOne, min_def]
  exact C8_full_sell arrP11.entry arrS11neg.entry 0 0 ⟨0, [(0, ⟨10, 10, 7⟩)]⟩
    ⟨10, 10, 7⟩ hf rfl (by norm_num) hv hlt hfrac

/-- C9: scenario 1 of the design document: with cash 1000, one day, one
instrument, price 10 and signal 1.0, the target is 100 shares, the notional
1000, the fee-inclusive cost `1000 · 1.0006 = 1000.6 > 1000`, so the trade
is skipped and the returned equity series is `[1000]`; in general, any buy
whose signal clamps to the full cash fraction (signal ≥ 1) with positive
cash has cost `cash · 1.0006 > cash` and is always rejected. -/
theorem C9_full_cash_buy_always_rejected (p s : Nat → Nat → FP) (t stock : Nat)
    (acc : Account) (hcash : 0 < acc.cash)
    (hv : (p t stock).validPrice = true)
    (hg : (s t stock).gtZero = true)
    (h1 : (s t stock).clampUpOne = 1) :
    stepStock p s t stock acc = acc ∧
    buyTarget 10 (.fin 1) 1000 = 100 ∧
    buyCost 10 (.fin 1) 1000 = 5003 / 5 ∧
    ChronoEngine.run ⟨1000, []⟩ arrP11 arrS11one = Except.ok (⟨1000, []⟩, [1000]) := by
  refine ⟨?_, ?_, ?_, run_full_cash_concrete⟩
  · apply stepStock_buy_skip_cost p s t stock acc hg
    have hne : (p t stock).toQ ≠ 0 := ne_of_gt (validPrice_toQ_pos hv)
    rw [buyCost, buyTarget, h1, mul_one, div_mul_cancel₀ _ hne]
    rw [commission, slippage]
    linarith
  · norm_num [buyTarget, FP.clampUpOne, min_def]
  · norm_num [buyCost, buyTarget, FP.clampUpOne, FP.toQ, commission, slippage, min_def]

/-- C9 witness: the theorem instantiated at the scenario inputs themselves
(cash 1000, price 10, signal 1.0 at day 0, instrument 0). -/
theorem C9_full_cash_buy_always_rejected_witness :
    stepStock arrP11.entry arrS11one.entry 0 0 ⟨1000, []⟩ = ⟨1000, []⟩ ∧
    buyTarget 10 (.fin 1) 1000 = 100 ∧
    buyCost 10 (.fin 1) 1000 = 5003 / 5 ∧
    ChronoEngine.run ⟨1000, []⟩ arrP11 arrS11one = Except.ok (⟨1000, []⟩, [1000]) :=
  C9_full_cash_buy_always_rejected arrP11.entry arrS11one.entry 0 0 ⟨1000, []⟩
    (by norm_num)
    (by norm_num [arrP11, FP.validPrice])
    (by norm_num [arrS11one, FP.gtZero])
    (by norm_num [arrS11one, FP.clampUpOne, min_def])

/-- C6 counterexample: with cash 1000 and BOTH instruments issuing a
full-cash buy signal (signal 1.0, price 10) on the same day, the
lower-indexed instrument's buy is NOT filled: its fee-inclusive cost
1000.6 exceeds the cash balance, so both buys are rejected and `run`
returns the account unchanged — no position is created and no cash is
spent, refuting the claim that the lower-indexed buy is filled. -/
theorem C6_counterexample_full_cash :
    ChronoEngine.run ⟨1000, []⟩ arrP12 arrS12one = Except.ok (⟨1000, []⟩, [1000]) := by
  have hskip0 : stepStock arrP12.entry arrS12one.entry 0 0 ⟨1000, []⟩ = ⟨1000, []⟩ := by
    apply stepStock_buy_skip_cost
    · norm_num [arrS12one, FP.gtZero]
    · norm_num [buyCost, buyTarget, arrP12, arrS12one, FP.toQ, FP.clampUpOne,
        commission, slippage, min_def]
  have hskip1 : stepStock arrP12.entry arrS12one.entry 0 1 ⟨1000, []⟩ = ⟨1000, []⟩ := by
    apply stepStock_buy_skip_cost
    · norm_num [arrS12one, FP.gtZero]
    · norm_num [buyCost, buyTarget, arrP12, arrS12one, FP.toQ, FP.clampUpOne,
        commission, slippage, min_def]
  have h1 : arrP12.shape = [1, 2] := rfl
  have h2 : arrS12one.shape = [1, 2] := rfl
  rw [ChronoEngine.run]
  rw [if_neg (by rw [h1, h2]; norm_num), if_neg (by rw [h1, h2]; norm_num)]
  rw [h1]
  simp [runDays, stepDay, tradeDay, unlockAll, equityValue, hskip0, hskip1,
    List.range_succ]

/-- C6 (amended): with limited cash and two instruments both issuing the
largest buy signal whose fee-inclusive cost fits in the cash balance
(signal `5000/5003 = 1/(1 + commission + slippage)`), the lower-indexed
instrument's buy is filled, consuming the entire cash balance, and the
higher-indexed instrument's buy is rejected because no cash remains — the
instrument pass runs in ascending index order over the shared, depleting
cash pool. -/
theorem C6_priority_amended (c p0 p1 : ℚ) (P S : Nat → Nat → FP)
    (hc : 0 < c) (hp0 : 0 < p0) (_hp1 : 0 < p1)
    (hP0 : P 0 0 = .fin p0) (_hP1 : P 0 1 = .fin p1)
    (hS0 : S 0 0 = .fin (5000 / 5003)) (hS1 : S 0 1 = .fin (5000 / 5003)) :
    (tradeDay P S 2 0 ⟨c, []⟩).cash = 0 ∧
    findPos (tradeDay P S 2 0 ⟨c, []⟩).positions 0 =
      some ⟨c * (5000 / 5003) / p0, 0, p0⟩ ∧
    findPos (tradeDay P S 2 0 ⟨c, []⟩).positions 1 = none := by
  have hne0 : p0 ≠ 0 := ne_of_gt hp0
  have htoQ0 : (P 0 0).toQ = p0 := by rw [hP0]; rfl
  have hv0 : (P 0 0).validPrice = true := by
    rw [hP0]
    show decide (0 < p0) = true
    simpa using hp0
  have hg0 : (S 0 0).gtZero = true := by
    rw [hS0]
    show decide ((0 : ℚ) < 5000 / 5003) = true
    norm_num
  have hclamp0 : (S 0 0).clampUpOne = 5000 / 5003 := by
    rw [hS0]
    show min (5000 / 5003 : ℚ) 1 = 5000 / 5003
    norm_num [min_def]
  have htarget0 : buyTarget (P 0 0).toQ (S 0 0) c = c * (5000 / 5003) / p0 := by
    rw [buyTarget, htoQ0, hclamp0]
  have ht0 : 0 < buyTarget (P 0 0).toQ (S 0 0) c := by
    rw [htarget0]; positivity
  have hcost0 : buyCost (P 0 0).toQ (S 0 0) c = c := by
    rw [buyCost, buyTarget, htoQ0, hclamp0, div_mul_cancel₀ _ hne0,
      commission, slippage]
    have hconst : (5000 / 5003 : ℚ) * (1 + 3 / 10000 + 3 / 10000) = 1 := by norm_num
    calc c * (5000 / 5003) * (1 + 3 / 10000 + 3 / 10000)
        = c * ((5000 / 5003) * (1 + 3 / 10000 + 3 / 10000)) := by ring
      _ = c * 1 := by rw [hconst]
      _ = c := mul_one c
  have hexec := stepStock_buy_exec P S 0 0 ⟨c, []⟩ hv0 hg0 ht0 (le_of_eq hcost0)
  have hbuyPos : buyPos (P 0 0).toQ (S 0 0) ⟨c, []⟩ 0 =
      ⟨c * (5000 / 5003) / p0, 0, p0⟩ := by
    have ht0' : (0 : ℚ) < c * (5000 / 5003) / p0 := by positivity
    rw [buyPos]
    simp only [buyTarget, htoQ0, hclamp0]
    show (⟨0 + c * (5000 / 5003) / p0, 0 + c * (5000 / 5003) / p0 * 0,
        if 0 < 0 + c * (5000 / 5003) / p0 then
          (0 * 0 + c * (5000 / 5003) / p0 * p0) / (0 + c * (5000 / 5003) / p0)
        else 0⟩ : Position) = _
    simp only [zero_add, mul_zero, add_zero, zero_mul]
    rw [if_pos ht0']
    have hdiv : (c * (5000 / 5003) / p0 * p0) / (c * (5000 / 5003) / p0) = p0 := by
      rw [mul_comm (c * (5000 / 5003) / p0) p0, mul_div_assoc,
        div_self (ne_of_gt ht0'), mul_one]
    rw [hdiv]
  have hacc1 : stepStock P S 0 0 ⟨c, []⟩ =
      ⟨0, [(0, ⟨c * (5000 / 5003) / p0, 0, p0⟩)]⟩ := by
    rw [hexec]
    simp only [hbuyPos, hcost0, sub_self, setPos]
  have hskip1 : stepStock P S 0 1 ⟨0, [(0, ⟨c * (5000 / 5003) / p0, 0, p0⟩)]⟩ =
      ⟨0, [(0, ⟨c * (5000 / 5003) / p0, 0, p0⟩)]⟩ := by
    apply stepStock_buy_skip_target
    · rw [hS1]
      show decide ((0 : ℚ) < 5000 / 5003) = true
      norm_num
    · show buyTarget (P 0 1).toQ (S 0 1) 0 ≤ 0
      rw [buyTarget, zero_mul, zero_div]
  have hDay : tradeDay P S 2 0 ⟨c, []⟩ =
      ⟨0, [(0, ⟨c * (5000 / 5003) / p0, 0, p0⟩)]⟩ := by
    rw [tradeDay]
    have hrange : List.range 2 = [0, 1] := by simp [List.range_succ]
    rw [hrange]
    have hunlock : unlockAll ⟨c, []⟩ = ⟨c, []⟩ := rfl
    simp only [List.foldl]
    rw [hunlock, hacc1, hskip1]
  rw [hDay]
  exact ⟨rfl, rfl, rfl⟩

/-- C6 (amended) witness: the amended theorem instantiated at cash 1000,
both prices 10, both signals 5000/5003. -/
theorem C6_priority_amended_witness :
    (tradeDay arrP12.entry arrS12full.entry 2 0 ⟨1000, []⟩).cash = 0 ∧
    findPos (tradeDay arrP12.entry arrS12full.entry 2 0 ⟨1000, []⟩).positions 0 =
      some ⟨1000 * (5000 / 5003) / 10, 0, 10⟩ ∧
    findPos (tradeDay arrP12.entry arrS12full.entry 2 0 ⟨1000, []⟩).positions 1 = none :=
  C6_priority_amended 1000 10 10 arrP12.entry arrS12full.entry
    (by norm_num) (by norm_num) (by norm_num) rfl rfl rfl rfl

/-- C10: the valuation loop reads the price matrix at each stored
position's key without bounds checks.  Within one run this is safe: every
key ever inserted comes from the instrument pass over `0, …, n_stocks−1`,
so if all keys of the starting account are below the column count, all keys
of every intermediate and final account are too (`keysBound` is the
precondition under which the embedding's total `entry` function models an
in-bounds read).  But positions persist across `run` calls: a concrete
first run with one column produces an account whose key 0 violates
`keysBound · 0`, i.e. a later run on matrices with zero columns would read
out of bounds. -/
theorem C10_valuation_access_bounds :
    (∀ (p s : Nat → Nat → FP) (n : Nat) (ts : List Nat) (acc : Account),
        keysBound acc n → keysBound ((runDays p s n ts acc).1) n) ∧
    (∃ acc1 eqs, ChronoEngine.run ⟨1000, []⟩ arrP11 arrS11half = Except.ok (acc1, eqs) ∧
        keysBound acc1 1 ∧ ¬ keysBound acc1 0) := by
  constructor
  · exact fun p s n ts acc h => runDays_keysBound p s n ts acc h
  · refine ⟨⟨4997 / 10, [(0, ⟨50, 0, 10⟩)]⟩, [9997 / 10], ?_, ?_, ?_⟩
    · have hv : (arrP11.entry 0 0).validPrice = true := by
        norm_num [arrP11, FP.validPrice]
      have hg : (arrS11half.entry 0 0).gtZero = true := by
        norm_num [arrS11half, FP.gtZero]
      have ht : 0 < buyTarget (arrP11.entry 0 0).toQ (arrS11half.entry 0 0)
          (⟨1000, []⟩ : Account).cash := by
        norm_num [buyTarget, arrP11, arrS11half, FP.toQ, FP.clampUpOne, min_def]
      have hc : buyCost (arrP11.entry 0 0).toQ (arrS11half.entry 0 0)
          (⟨1000, []⟩ : Account).cash ≤ (⟨1000, []⟩ : Account).cash := by
        norm_num [buyCost, buyTarget, arrP11, arrS11half, FP.toQ, FP.clampUpOne,
          commission, slippage, min_def]
      have hexec : stepStock arrP11.entry arrS11half.entry 0 0 ⟨1000, []⟩ =
          ⟨4997 / 10, [(0, ⟨50, 0, 10⟩)]⟩ := by
        rw [stepStock_buy_exec arrP11.entry arrS11half.entry 0 0 ⟨1000, []⟩ hv hg ht hc]
        norm_num [buyCost, buyTarget, buyPos, setPos, findPos, arrP11, arrS11half,
          FP.toQ, FP.clampUpOne, commission, slippage, min_def]
      have hval : equityValue arrP11.entry 0 ⟨4997 / 10, [(0, ⟨50, 0, 10⟩)]⟩ =
          9997 / 10 := by
        rw [equityValue]
        norm_num [posContrib, arrP11, FP.validPrice, FP.toQ]
      have h1 : arrP11.shape = [1, 1] := rfl
      have h2 : arrS11half.shape = [1, 1] := rfl
      rw [ChronoEngine.run]
      rw [if_neg (by rw [h1, h2]; norm_num), if_neg (by rw [h1, h2]; norm_num)]
      rw [h1]
      simp [runDays, stepDay, tradeDay, unlockAll, hexec, hval, List.range_succ]
    · intro kv hkv
      simp only [List.mem_singleton] at hkv
      subst hkv
      norm_num
    · intro hkb
      exact absurd (hkb (0, ⟨50, 0, 10⟩) (List.mem_singleton.2 rfl)) (by norm_num)

/-- C10 witness: the preservation half applied to a concrete one-day,
one-instrument run starting from the empty account, together with the
cross-run violation half. -/
theorem C10_valuation_access_bounds_witness :
    keysBound ((runDays arrP11.entry arrS11half.entry 1 [0] ⟨1000, []⟩).1) 1 ∧
    (∃ acc1 eqs, ChronoEngine.run ⟨1000, []⟩ arrP11 arrS11half = Except.ok (acc1, eqs) ∧
        keysBound acc1 1 ∧ ¬ keysBound acc1 0) :=
  ⟨C10_valuation_access_bounds.1 arrP11.entry arrS11half.entry 1 [0] ⟨1000, []⟩
      (fun kv hkv => absurd hkv (List.not_mem_nil kv)),
   C10_valuation_access_bounds.2⟩

/-- C3 witness: the theorem instantiated at a concrete well-formed account
holding one position, with the quantifiers instantiated at day 0, stock 0,
and a one-day run. -/
theorem C3_position_invariant_witness :
    (unlockAll ⟨5, [(0, ⟨2, 1, 3⟩)]⟩).wf ∧
    (stepStock arrP11.entry arrS11one.entry 0 0 ⟨5, [(0, ⟨2, 1, 3⟩)]⟩).wf ∧
    ((runDays arrP11.entry arrS11one.entry 1 [0] ⟨5, [(0, ⟨2, 1, 3⟩)]⟩).1).wf := by
  have hwf : Account.wf ⟨5, [(0, ⟨2, 1, 3⟩)]⟩ := by
    intro kv hkv
    simp only [List.mem_singleton] at hkv
    subst hkv
    exact ⟨by norm_num, by norm_num, fun h0 => absurd h0 (by norm_num)⟩
  exact ⟨(C3_position_invariant arrP11.entry arrS11one.entry _ hwf).1,
         (C3_position_invariant arrP11.entry arrS11one.entry _ hwf).2.1 0 0,
         (C3_position_invariant arrP11.entry arrS11one.entry _ hwf).2.2.2 1 [0]⟩

end Beruto
